import Mathlib

/-!
Verification of the RBAC permission/menu resolution core of a FastAPI
admin-panel backend.  The definitions below are a shallow embedding of
`app/services/rbac_service.py` and `app/services/menu_service.py`
(together with the data model of `app/models/*.py`): SQLAlchemy tables
become lists of records, queries become list filters, and the recursive
menu-tree builder becomes a fuel-indexed recursion (the Python function
has no termination guard; fuel sufficiency is proved below).
-/

set_option maxHeartbeats 1000000

namespace ProdRepo

/-- Legacy user role enumeration (`app/models/user.py`, class `UserRole`). -/
inductive UserRole where
  | USER
  | ADMIN
  | SUPER_ADMIN
deriving DecidableEq, Repr

/-- A row of the `users` table; only the columns read by the RBAC core. -/
structure User where
  id : Int
  tenant_id : Option Int
  role : UserRole
deriving DecidableEq, Repr

/-- A row of the `roles` table; only the columns read by the RBAC core. -/
structure Role where
  id : Int
  tenant_id : Option Int
  code : String
  is_active : Bool
  is_deleted : Bool
deriving DecidableEq, Repr

/-- A row of the `features` table; only the columns read by the RBAC core. -/
structure Feature where
  id : Int
  code : String
  is_active : Bool
  is_deleted : Bool
deriving DecidableEq, Repr

/-- A row of the `menus` table (`app/models/menu.py`). -/
structure Menu where
  id : Int
  tenant_id : Option Int
  parent_id : Option Int
  name : String
  path : Option String
  icon : Option String
  sort_order : Int
  level : Int
  is_active : Bool
  is_deleted : Bool
deriving DecidableEq, Repr

/-- The hierarchical node (`app/schemas/menu.py`, class `MenuNode`). -/
inductive MenuNode where
  | mk (id : Int) (name : String) (path : Option String) (icon : Option String)
       (children : List MenuNode)
deriving Repr

def MenuNode.id : MenuNode → Int
  | .mk i _ _ _ _ => i

def MenuNode.name : MenuNode → String
  | .mk _ n _ _ _ => n

def MenuNode.path : MenuNode → Option String
  | .mk _ _ p _ _ => p

def MenuNode.icon : MenuNode → Option String
  | .mk _ _ _ ic _ => ic

def MenuNode.children : MenuNode → List MenuNode
  | .mk _ _ _ _ cs => cs

/--
The relational store visible to the RBAC core.  Association tables are
lists of id pairs: `user_roles` holds `(user_id, role_id)`,
`role_features` holds `(role_id, feature_id)`, `role_menus` holds
`(role_id, menu_id)` (`app/models/role.py`; the audit columns
`assigned_at`/`assigned_by`/`granted_at`/`granted_by` carry no logic and
are omitted).
-/
structure DB where
  roles : List Role
  features : List Feature
  menus : List Menu
  user_roles : List (Int × Int)
  role_features : List (Int × Int)
  role_menus : List (Int × Int)
deriving Repr

/-! ## Menu tree builder (`app/services/menu_service.py`, `build_menu_tree`) -/

/-- The sort key used in `children.sort(key=lambda m: (m.sort_order, m.id))`:
lexicographic on `(sort_order, id)`. -/
def menuLe (a b : Menu) : Prop :=
  a.sort_order < b.sort_order ∨ (a.sort_order = b.sort_order ∧ a.id ≤ b.id)

instance : DecidableRel menuLe := fun a b =>
  inferInstanceAs (Decidable (a.sort_order < b.sort_order ∨
    (a.sort_order = b.sort_order ∧ a.id ≤ b.id)))

instance : IsTotal Menu menuLe where
  total a b := by
    rcases lt_trichotomy a.sort_order b.sort_order with h | h | h
    · exact Or.inl (Or.inl h)
    · rcases le_total a.id b.id with h2 | h2
      · exact Or.inl (Or.inr ⟨h, h2⟩)
      · exact Or.inr (Or.inr ⟨h.symm, h2⟩)
    · exact Or.inr (Or.inl h)

instance : IsTrans Menu menuLe where
  trans a b c hab hbc := by
    rcases hab with h1 | ⟨e1, l1⟩
    · rcases hbc with h2 | ⟨e2, _⟩
      · exact Or.inl (h1.trans h2)
      · exact Or.inl (e2 ▸ h1)
    · rcases hbc with h2 | ⟨e2, l2⟩
      · exact Or.inl (e1 ▸ h2)
      · exact Or.inr ⟨e1.trans e2, l1.trans l2⟩

/--
`by_parent[pid]`, already sorted: the partition of the input rows with
`parent_id = pid`, ordered by `(sort_order, id)`.  In the Python source the
partition is built by a `defaultdict` (preserving input order) and then
sorted in place; filtering preserves input order, so this is the same list.
-/
def childrenOf (ms : List Menu) (pid : Option Int) : List Menu :=
  List.insertionSort menuLe (ms.filter (fun m => m.parent_id == pid))

/--
`to_node`, made total with explicit fuel: the Python closure recurses
through `by_parent` with no cycle guard, so the embedding counts recursion
depth.  `toNode_fuel_congr` below shows that any fuel of at least the
number of input rows gives the function's (unique) fixed behaviour when
ids are distinct.
-/
def toNode (ms : List Menu) : Nat → Menu → MenuNode
  | 0, m => .mk m.id m.name m.path m.icon []
  | fuel + 1, m =>
      .mk m.id m.name m.path m.icon
        ((childrenOf ms (some m.id)).map (toNode ms fuel))

/-- `build_menu_tree` run with a given recursion-depth budget. -/
def buildMenuTreeFuel (ms : List Menu) (fuel : Nat) : List MenuNode :=
  (childrenOf ms none).map (toNode ms fuel)

/-- `build_menu_tree(menus)`: roots are the `None` partition; fuel is the
input length, which suffices (see `buildMenuTreeFuel_eq`). -/
def build_menu_tree (ms : List Menu) : List MenuNode :=
  buildMenuTreeFuel ms ms.length

/-! ## RBAC service (`app/services/rbac_service.py`) -/

/-- `SYSTEM_ADMIN_ROLE_CODE` (`app/core/dependencies.py`). -/
def SYSTEM_ADMIN_ROLE_CODE : String := "SYSTEM_ADMIN"

/-- Python's `str.lower()` (an external library primitive), modelled as a
character-wise lowercase map. -/
def str_lower (s : String) : String := ⟨s.data.map Char.toLower⟩

/-- `get_user_roles(db, user_id)`: all non-deleted roles joined through the
`user_roles` association. -/
def get_user_roles (db : DB) (user_id : Int) : List Role :=
  db.roles.filter (fun r =>
    db.user_roles.any (fun ur => ur.2 == r.id && ur.1 == user_id)
      && !r.is_deleted)

/-- `set_user_roles(db, user, role_ids)`: delete every `user_roles` row of
the user, then insert one row per id in the list. -/
def set_user_roles (db : DB) (user : User) (role_ids : List Int) : DB :=
  { db with user_roles :=
      db.user_roles.filter (fun ur => !(ur.1 == user.id))
        ++ role_ids.map (fun rid => (user.id, rid)) }

/-- `set_role_menus(db, role, menu_ids)`: delete every `role_menus` row of
the role, then insert one row per id in the list. -/
def set_role_menus (db : DB) (role : Role) (menu_ids : List Int) : DB :=
  { db with role_menus :=
      db.role_menus.filter (fun rm => !(rm.1 == role.id))
        ++ menu_ids.map (fun mid => (role.id, mid)) }

/-- `set_role_features(db, role, feature_ids)`: delete every `role_features`
row of the role, then insert one row per id in the list. -/
def set_role_features (db : DB) (role : Role) (feature_ids : List Int) : DB :=
  { db with role_features :=
      db.role_features.filter (fun rf => !(rf.1 == role.id))
        ++ feature_ids.map (fun fid => (role.id, fid)) }

/-- The `is_super_admin` test inside `resolve_user_permissions_and_menus`. -/
def is_super_admin (db : DB) (user : User) : Bool :=
  let role_codes := (get_user_roles db user.id).map (fun r => str_lower r.code)
  user.role == UserRole.SUPER_ADMIN
    || (user.role == UserRole.ADMIN && user.tenant_id == none)
    || role_codes.contains (str_lower SYSTEM_ADMIN_ROLE_CODE)

/-- The feature rows selected by `resolve_user_permissions_and_menus`
(the `features` query of either branch, before taking codes). -/
def resolved_features (db : DB) (user : User) : List Feature :=
  let role_ids := (get_user_roles db user.id).map Role.id
  if is_super_admin db user then
    db.features.filter (fun f => !f.is_deleted && f.is_active)
  else if !role_ids.isEmpty then
    (db.features.filter (fun f =>
      db.role_features.any (fun rf => rf.2 == f.id && role_ids.contains rf.1)
        && !f.is_deleted && f.is_active)).dedup
  else
    []

/-- The menu rows selected by `resolve_user_permissions_and_menus` before
the tenant filter (the `menu_rows` query of either branch). -/
def candidate_menu_rows (db : DB) (user : User) : List Menu :=
  let role_ids := (get_user_roles db user.id).map Role.id
  if is_super_admin db user then
    db.menus.filter (fun m => !m.is_deleted && m.is_active)
  else if !role_ids.isEmpty then
    (db.menus.filter (fun m =>
      db.role_menus.any (fun rm => rm.2 == m.id && role_ids.contains rm.1)
        && !m.is_deleted && m.is_active)).dedup
  else
    []

/-- The menu rows after the per-branch tenant comprehension
`[m for m in menu_rows if m.tenant_id is None or m.tenant_id == user.tenant_id]`
(in the empty-roles branch there is no comprehension, but filtering the
empty list is the empty list). -/
def resolved_menu_rows (db : DB) (user : User) : List Menu :=
  (candidate_menu_rows db user).filter
    (fun m => m.tenant_id == none || m.tenant_id == user.tenant_id)

/-- `resolve_user_permissions_and_menus(db, user)`. -/
def resolve_user_permissions_and_menus (db : DB) (user : User) :
    List String × List MenuNode :=
  let feature_codes := (resolved_features db user).map Feature.code
  let menu_rows := resolved_menu_rows db user
  let menu_tree := if !menu_rows.isEmpty then build_menu_tree menu_rows else []
  (feature_codes, menu_tree)

/-- `resolve_permissions` of the spec: first component of the resolution. -/
def resolve_permissions (db : DB) (user : User) : List String :=
  (resolve_user_permissions_and_menus db user).1

/-- `resolve_menus` of the spec: second component of the resolution. -/
def resolve_menus (db : DB) (user : User) : List MenuNode :=
  (resolve_user_permissions_and_menus db user).2

/-! ## Counting occurrences in a forest -/

/-- Number of nodes carrying id `i` in the subtree rooted at `n`. -/
def countId (i : Int) : MenuNode → Nat
  | .mk j _ _ _ cs =>
      (if j = i then 1 else 0) + (cs.attach.map (fun c => countId i c.1)).sum
termination_by n => sizeOf n
decreasing_by
  simp only [MenuNode.mk.sizeOf_spec]
  have := List.sizeOf_lt_of_mem c.2
  omega

theorem countId_mk (i j : Int) (nm : String) (p ic : Option String)
    (cs : List MenuNode) :
    countId i (.mk j nm p ic cs) =
      (if j = i then 1 else 0) + (cs.map (countId i)).sum := by
  rw [countId, List.attach_map_val]

/-- Total number of nodes carrying id `i` in a forest. -/
def countIdForest (i : Int) (forest : List MenuNode) : Nat :=
  (forest.map (countId i)).sum

/-! ## Basic facts about the partitions -/

theorem mem_childrenOf {ms : List Menu} {pid : Option Int} {c : Menu} :
    c ∈ childrenOf ms pid ↔ c ∈ ms ∧ c.parent_id = pid := by
  unfold childrenOf
  rw [(List.perm_insertionSort menuLe _).mem_iff, List.mem_filter]
  simp

theorem childrenOf_nodup {ms : List Menu}
    (hnd : (ms.map Menu.id).Nodup) (pid : Option Int) :
    (childrenOf ms pid).Nodup := by
  have h1 : ms.Nodup := hnd.of_map
  have h2 : (ms.filter (fun m => m.parent_id == pid)).Nodup := h1.filter _
  exact (List.perm_insertionSort menuLe _).nodup_iff.mpr h2

theorem id_inj {ms : List Menu} (hnd : (ms.map Menu.id).Nodup)
    {a b : Menu} (ha : a ∈ ms) (hb : b ∈ ms) (h : a.id = b.id) : a = b :=
  List.inj_on_of_nodup_map hnd ha hb h

/-! ## Ancestor chains

`Anc ms vs m` means: row `m` is reached by the tree builder with ancestor
stack `vs` (`vs.head` is the parent of `m`, `vs.getLast` is a root). -/

inductive Anc (ms : List Menu) : List Menu → Menu → Prop
  | root {m} : m ∈ ms → m.parent_id = none → Anc ms [] m
  | child {p vs m} : Anc ms vs p → m ∈ ms → m.parent_id = some p.id →
      Anc ms (p :: vs) m

theorem Anc.mem {ms vs m} (h : Anc ms vs m) : m ∈ ms := by
  cases h with
  | root hm _ => exact hm
  | child _ hm _ => exact hm

theorem Anc.subset {ms vs m} (h : Anc ms vs m) : ∀ y ∈ vs, y ∈ ms := by
  induction h with
  | root _ _ => intro y hy; cases hy
  | child hp _ _ ih =>
      intro y hy
      rcases List.mem_cons.mp hy with rfl | hy
      · exact hp.mem
      · exact ih y hy

theorem Anc.unique {ms : List Menu} (hnd : (ms.map Menu.id).Nodup) :
    ∀ {vs vs' m}, Anc ms vs m → Anc ms vs' m → vs = vs' := by
  intro vs vs' m h
  induction h generalizing vs' with
  | root _ hnone =>
      intro h2
      cases h2 with
      | root _ _ => rfl
      | child _ _ hsome => rw [hnone] at hsome; cases hsome
  | child hp _ hsome ih =>
      intro h2
      cases h2 with
      | root _ hnone => rw [hnone] at hsome; cases hsome
      | child hq _ hsome2 =>
          rw [hsome] at hsome2
          have hid := Option.some.inj hsome2
          have heq := id_inj hnd hq.mem hp.mem hid.symm
          subst heq
          rw [ih hq]

theorem Anc.suffix_of_mem {ms : List Menu} {vs m y}
    (h : Anc ms vs m) (hy : y ∈ vs) :
    ∃ vs', Anc ms vs' y ∧ (y :: vs') <:+ vs ∧ vs'.length < vs.length := by
  induction h with
  | root _ _ => cases hy
  | @child p vs0 m hp _ _ ih =>
      rcases List.mem_cons.mp hy with rfl | hy
      · exact ⟨vs0, hp, List.suffix_refl _, Nat.lt_succ_self _⟩
      · rcases ih hy with ⟨vs', ha, hs, hl⟩
        exact ⟨vs', ha, hs.trans (List.suffix_cons _ _),
          Nat.lt_succ_of_lt hl⟩

theorem Anc.not_mem {ms : List Menu} (hnd : (ms.map Menu.id).Nodup)
    {vs m} (h : Anc ms vs m) : m ∉ vs := by
  intro hm
  rcases h.suffix_of_mem hm with ⟨vs', ha, _, hl⟩
  rw [Anc.unique hnd ha h] at hl
  exact Nat.lt_irrefl _ hl

theorem Anc.nodup {ms : List Menu} (hnd : (ms.map Menu.id).Nodup)
    {vs m} (h : Anc ms vs m) : (m :: vs).Nodup := by
  induction h with
  | root _ _ => exact List.nodup_singleton _
  | child hp hm hsome ih =>
      exact List.Nodup.cons
        ((Anc.child hp hm hsome).not_mem hnd) ih

theorem Anc.length_lt {ms : List Menu} (hnd : (ms.map Menu.id).Nodup)
    {vs m} (h : Anc ms vs m) : vs.length < ms.length := by
  have hsub : (m :: vs) ⊆ ms := by
    intro y hy
    rcases List.mem_cons.mp hy with rfl | hy
    · exact h.mem
    · exact h.subset y hy
  have := ((h.nodup hnd).subperm hsub).length_le
  simpa using this

/-! ## Fuel sufficiency for the tree builder -/

theorem toNode_fuel_congr {ms : List Menu} (hnd : (ms.map Menu.id).Nodup) :
    ∀ f₁ f₂ vs (m : Menu), Anc ms vs m →
      ms.length - vs.length ≤ f₁ → ms.length - vs.length ≤ f₂ →
      toNode ms f₁ m = toNode ms f₂ m := by
  intro f₁
  induction f₁ with
  | zero =>
      intro f₂ vs m ha h1 _
      have := ha.length_lt hnd
      omega
  | succ a ih =>
      intro f₂ vs m ha h1 h2
      have hlt := ha.length_lt hnd
      match f₂ with
      | 0 => omega
      | b + 1 =>
          show MenuNode.mk _ _ _ _ _ = MenuNode.mk _ _ _ _ _
          congr 1
          apply List.map_congr_left
          intro c hc
          rcases mem_childrenOf.mp hc with ⟨hcm, hcp⟩
          exact ih b (m :: vs) c (Anc.child ha hcm hcp)
            (by simp only [List.length_cons]; omega)
            (by simp only [List.length_cons]; omega)

/-- Any fuel of at least the number of input rows yields `build_menu_tree`:
the recursion in the Python source needs depth at most the row count when
ids are distinct. -/
theorem buildMenuTreeFuel_eq {ms : List Menu} (hnd : (ms.map Menu.id).Nodup)
    {f : Nat} (hf : ms.length ≤ f) :
    buildMenuTreeFuel ms f = build_menu_tree ms := by
  unfold build_menu_tree buildMenuTreeFuel
  apply List.map_congr_left
  intro r hr
  rcases mem_childrenOf.mp hr with ⟨hrm, hrp⟩
  exact toNode_fuel_congr hnd f ms.length [] r (Anc.root hrm hrp)
    (by simpa using hf) (by simp)

/-! ## Each row appears at most once -/

theorem sum_map_le_one {α : Type} (l : List α) (f : α → Nat) (hnd : l.Nodup)
    (h1 : ∀ x ∈ l, f x ≤ 1)
    (h2 : ∀ x ∈ l, ∀ y ∈ l, 1 ≤ f x → 1 ≤ f y → x = y) :
    (l.map f).sum ≤ 1 := by
  induction l with
  | nil => simp
  | cons x xs ih =>
      simp only [List.map_cons, List.sum_cons]
      rcases Nat.eq_zero_or_pos (f x) with hx | hx
      · rw [hx]
        simp only [Nat.zero_add]
        exact ih hnd.of_cons (fun y hy => h1 y (List.mem_cons_of_mem _ hy))
          (fun y hy z hz => h2 y (List.mem_cons_of_mem _ hy)
            z (List.mem_cons_of_mem _ hz))
      · have hrest : (xs.map f).sum = 0 := by
          apply List.sum_eq_zero
          intro v hv
          rcases List.mem_map.mp hv with ⟨y, hy, rfl⟩
          by_contra hne
          have hy1 : 1 ≤ f y := Nat.one_le_iff_ne_zero.mpr hne
          have := h2 x (List.mem_cons_self _ _) y (List.mem_cons_of_mem _ hy)
            hx hy1
          subst this
          exact (List.nodup_cons.mp hnd).1 hy
        rw [hrest]
        have := h1 x (List.mem_cons_self _ _)
        omega

theorem exists_pos_of_sum_map {α : Type} (l : List α) (f : α → Nat)
    (h : 1 ≤ (l.map f).sum) : ∃ x ∈ l, 1 ≤ f x := by
  induction l with
  | nil => simp at h
  | cons x xs ih =>
      simp only [List.map_cons, List.sum_cons] at h
      rcases Nat.eq_zero_or_pos (f x) with hx | hx
      · rw [hx, Nat.zero_add] at h
        rcases ih h with ⟨y, hy, hfy⟩
        exact ⟨y, List.mem_cons_of_mem _ hy, hfy⟩
      · exact ⟨x, List.mem_cons_self _ _, hx⟩

/-- Suffixes of a common list with equal lengths coincide. -/
theorem suffix_eq_of_length {α : Type} {l₁ l₂ L : List α}
    (h1 : l₁ <:+ L) (h2 : l₂ <:+ L) (hl : l₁.length = l₂.length) :
    l₁ = l₂ := by
  rcases h1 with ⟨t₁, rfl⟩
  rcases h2 with ⟨t₂, heq⟩
  have hlen : t₂.length = t₁.length := by
    have := congrArg List.length heq
    simp only [List.length_append] at this
    omega
  exact (List.append_inj heq.symm hlen.symm).2

/--
Core single-occurrence invariant: in the subtree built at a row `m` whose
ancestor stack is `vs`, each id occurs at most once, and an id occurring
there belongs to a row whose own ancestor chain passes through `m`.
-/
theorem countId_toNode_le_one {ms : List Menu}
    (hnd : (ms.map Menu.id).Nodup) :
    ∀ (f : Nat) vs (m : Menu), Anc ms vs m → ∀ i : Int,
      countId i (toNode ms f m) ≤ 1 ∧
      (1 ≤ countId i (toNode ms f m) →
        ∃ r vsr, r.id = i ∧ Anc ms vsr r ∧ (m :: vs) <:+ (r :: vsr)) := by
  intro f
  induction f with
  | zero =>
      intro vs m ha i
      simp only [toNode, countId_mk, List.map_nil, List.sum_nil,
        Nat.add_zero]
      constructor
      · split <;> omega
      · intro h
        split at h
        · exact ⟨m, vs, by assumption, ha, List.suffix_refl _⟩
        · omega
  | succ a ih =>
      intro vs m ha i
      have hchild : ∀ c ∈ childrenOf ms (some m.id), Anc ms (m :: vs) c := by
        intro c hc
        rcases mem_childrenOf.mp hc with ⟨hcm, hcp⟩
        exact Anc.child ha hcm hcp
      have hcount : countId i (toNode ms (a + 1) m) =
          (if m.id = i then 1 else 0) +
            ((childrenOf ms (some m.id)).map
              (fun c => countId i (toNode ms a c))).sum := by
        simp only [toNode, countId_mk, List.map_map]
        rfl
      -- a child subtree containing `i` forces the full chain through `m`
      have hsub : ∀ c ∈ childrenOf ms (some m.id),
          1 ≤ countId i (toNode ms a c) →
          ∃ r vsr, r.id = i ∧ Anc ms vsr r ∧
            (c :: m :: vs) <:+ (r :: vsr) :=
        fun c hc h1 => ((ih (m :: vs) c (hchild c hc) i).2 h1)
      have hone : ∀ c ∈ childrenOf ms (some m.id),
          countId i (toNode ms a c) ≤ 1 :=
        fun c hc => (ih (m :: vs) c (hchild c hc) i).1
      have hdisj : ∀ c₁ ∈ childrenOf ms (some m.id),
          ∀ c₂ ∈ childrenOf ms (some m.id),
          1 ≤ countId i (toNode ms a c₁) →
          1 ≤ countId i (toNode ms a c₂) → c₁ = c₂ := by
        intro c₁ hc₁ c₂ hc₂ h1 h2
        rcases hsub c₁ hc₁ h1 with ⟨r₁, vsr₁, hr₁, har₁, hs₁⟩
        rcases hsub c₂ hc₂ h2 with ⟨r₂, vsr₂, hr₂, har₂, hs₂⟩
        have : r₁ = r₂ :=
          id_inj hnd har₁.mem har₂.mem (hr₁.trans hr₂.symm)
        subst this
        have : vsr₁ = vsr₂ := Anc.unique hnd har₁ har₂
        subst this
        have := suffix_eq_of_length hs₁ hs₂ (by simp)
        exact (List.cons.injEq _ _ _ _ ▸ this).1
      have hsumle : ((childrenOf ms (some m.id)).map
          (fun c => countId i (toNode ms a c))).sum ≤ 1 :=
        sum_map_le_one _ _ (childrenOf_nodup hnd _) hone hdisj
      by_cases hmi : m.id = i
      · -- `i` is `m` itself: no child subtree may contain it again
        have hzero : ((childrenOf ms (some m.id)).map
            (fun c => countId i (toNode ms a c))).sum = 0 := by
          apply List.sum_eq_zero
          intro v hv
          rcases List.mem_map.mp hv with ⟨c, hc, rfl⟩
          by_contra hne
          have h1 : 1 ≤ countId i (toNode ms a c) :=
            Nat.one_le_iff_ne_zero.mpr hne
          rcases hsub c hc h1 with ⟨r, vsr, hr, har, hs⟩
          have : r = m := id_inj hnd har.mem ha.mem (hr.trans hmi.symm)
          subst this
          have : vsr = vs := Anc.unique hnd har ha
          subst this
          have := hs.length_le
          simp only [List.length_cons] at this
          omega
        have heq : countId i (toNode ms (a + 1) m) = 1 := by
          rw [hcount, hzero, if_pos hmi]
        constructor
        · exact Nat.le_of_eq heq
        · intro _
          exact ⟨m, vs, hmi, ha, List.suffix_refl _⟩
      · constructor
        · rw [hcount, if_neg hmi, Nat.zero_add]
          exact hsumle
        · intro h
          rw [hcount, if_neg hmi, Nat.zero_add] at h
          rcases exists_pos_of_sum_map _ _ h with ⟨c, hc, hpos⟩
          rcases hsub c hc hpos with ⟨r, vsr, hr, har, hs⟩
          exact ⟨r, vsr, hr, har,
            ((List.suffix_cons c (m :: vs)).trans hs)⟩

/-- Forest-level single occurrence: with pairwise-distinct ids, each id
labels at most one node of the whole output forest. -/
theorem countIdForest_build_le_one {ms : List Menu}
    (hnd : (ms.map Menu.id).Nodup) (i : Int) :
    countIdForest i (build_menu_tree ms) ≤ 1 := by
  unfold countIdForest build_menu_tree buildMenuTreeFuel
  rw [List.map_map]
  have hroot : ∀ r ∈ childrenOf ms none, Anc ms [] r := by
    intro r hr
    rcases mem_childrenOf.mp hr with ⟨hrm, hrp⟩
    exact Anc.root hrm hrp
  apply sum_map_le_one _ _ (childrenOf_nodup hnd _)
  · intro r hr
    exact (countId_toNode_le_one hnd _ [] r (hroot r hr) i).1
  · intro r₁ hr₁ r₂ hr₂ h1 h2
    rcases (countId_toNode_le_one hnd _ [] r₁ (hroot r₁ hr₁) i).2 h1 with
      ⟨s₁, vs₁, hs₁, has₁, hsx₁⟩
    rcases (countId_toNode_le_one hnd _ [] r₂ (hroot r₂ hr₂) i).2 h2 with
      ⟨s₂, vs₂, hs₂, has₂, hsx₂⟩
    have : s₁ = s₂ := id_inj hnd has₁.mem has₂.mem (hs₁.trans hs₂.symm)
    subst this
    have : vs₁ = vs₂ := Anc.unique hnd has₁ has₂
    subst this
    have := suffix_eq_of_length hsx₁ hsx₂ (by simp)
    exact (List.cons.injEq _ _ _ _ ▸ this).1

/-! ## Provenance: every node of the forest comes from an input row -/

theorem countId_pos_toNode {ms : List Menu} :
    ∀ (f : Nat) (m : Menu), m ∈ ms → ∀ i : Int,
      1 ≤ countId i (toNode ms f m) →
      i = m.id ∨ ∃ r ∈ ms, r.id = i ∧ ∃ p ∈ ms, r.parent_id = some p.id := by
  intro f
  induction f with
  | zero =>
      intro m _ i h
      simp only [toNode, countId_mk, List.map_nil, List.sum_nil,
        Nat.add_zero] at h
      by_cases hmi : m.id = i
      · exact Or.inl hmi.symm
      · rw [if_neg hmi] at h
        omega
  | succ a ih =>
      intro m hm i h
      simp only [toNode, countId_mk, List.map_map] at h
      by_cases hmi : m.id = i
      · exact Or.inl hmi.symm
      · rw [if_neg hmi, Nat.zero_add] at h
        rcases exists_pos_of_sum_map _ _ h with ⟨c, hc, hpos⟩
        rcases mem_childrenOf.mp hc with ⟨hcm, hcp⟩
        rcases ih c hcm i hpos with hic | hr
        · exact Or.inr ⟨c, hcm, hic.symm, m, hm, hcp⟩
        · exact Or.inr hr

theorem countIdForest_build_pos {ms : List Menu} (i : Int)
    (h : 1 ≤ countIdForest i (build_menu_tree ms)) :
    ∃ r ∈ ms, r.id = i ∧
      (r.parent_id = none ∨ ∃ p ∈ ms, r.parent_id = some p.id) := by
  unfold countIdForest build_menu_tree buildMenuTreeFuel at h
  rw [List.map_map] at h
  rcases exists_pos_of_sum_map _ _ h with ⟨r, hr, hpos⟩
  rcases mem_childrenOf.mp hr with ⟨hrm, hrp⟩
  rcases countId_pos_toNode _ r hrm i hpos with hir | ⟨s, hs, hsi, p, hp, hsp⟩
  · exact ⟨r, hrm, hir.symm, Or.inl hrp⟩
  · exact ⟨s, hs, hsi, Or.inr ⟨p, hp, hsp⟩⟩

/-! ## Characterizations of the resolver queries -/

theorem mem_get_user_roles {db : DB} {uid : Int} {r : Role} :
    r ∈ get_user_roles db uid ↔
      r ∈ db.roles ∧ r.is_deleted = false ∧
        ∃ ur ∈ db.user_roles, ur.1 = uid ∧ ur.2 = r.id := by
  unfold get_user_roles
  rw [List.mem_filter]
  simp only [Bool.and_eq_true, List.any_eq_true, beq_iff_eq,
    Bool.not_eq_true', and_assoc]
  constructor
  · rintro ⟨h1, ⟨ur, hur, h2, h3⟩, h4⟩
    exact ⟨h1, h4, ur, hur, h3, h2⟩
  · rintro ⟨h1, h4, ur, hur, h3, h2⟩
    exact ⟨h1, ⟨ur, hur, h2, h3⟩, h4⟩

theorem candidate_menu_rows_subset (db : DB) (u : User) :
    candidate_menu_rows db u ⊆ db.menus := by
  intro m hm
  simp only [candidate_menu_rows] at hm
  split at hm
  · exact List.mem_of_mem_filter hm
  · split at hm
    · exact List.mem_of_mem_filter ((List.dedup_sublist _).subset hm)
    · cases hm

theorem mem_resolved_menu_rows {db : DB} {u : User} {m : Menu} :
    m ∈ resolved_menu_rows db u ↔
      m ∈ candidate_menu_rows db u ∧
        (m.tenant_id = none ∨ m.tenant_id = u.tenant_id) := by
  unfold resolved_menu_rows
  rw [List.mem_filter]
  simp

/-! ## Full-replace association helpers -/

theorem replace_assoc_mem {A : List (Int × Int)} {owner t : Int}
    {L : List Int} :
    (owner, t) ∈ A.filter (fun x => !(x.1 == owner))
        ++ L.map (fun l => (owner, l)) ↔ t ∈ L := by
  rw [List.mem_append]
  constructor
  · rintro (h | h)
    · have := List.of_mem_filter h
      simp at this
    · rcases List.mem_map.mp h with ⟨l, hl, he⟩
      cases he
      exact hl
  · intro h
    exact Or.inr (List.mem_map.mpr ⟨t, h, rfl⟩)

theorem replace_assoc_idem {A : List (Int × Int)} {owner : Int}
    {L : List Int} :
    (A.filter (fun x => !(x.1 == owner))
        ++ L.map (fun l => (owner, l))).filter (fun x => !(x.1 == owner))
      = A.filter (fun x => !(x.1 == owner)) := by
  rw [List.filter_append, List.filter_filter]
  have h1 : (A.filter fun x => (!(x.1 == owner)) && !(x.1 == owner))
      = A.filter (fun x => !(x.1 == owner)) := by
    apply List.filter_congr
    intro x _
    cases h : (x.1 == owner) <;> simp [h]
  have h2 : (L.map (fun l => (owner, l))).filter (fun x => !(x.1 == owner))
      = [] := by
    rw [List.filter_eq_nil_iff]
    intro x hx
    rcases List.mem_map.mp hx with ⟨l, _, rfl⟩
    simp
  rw [h1, h2, List.append_nil]

theorem get_user_roles_active_invariant (db : DB) (uid : Int)
    (g : Role → Bool) :
    get_user_roles
        { db with roles := db.roles.map (fun r => { r with is_active := g r }) }
        uid
      = (get_user_roles db uid).map (fun r => { r with is_active := g r }) := by
  unfold get_user_roles
  rw [List.filter_map]
  rfl

/-- The first component of the resolution is the feature codes. -/
theorem resolve_permissions_eq (db : DB) (u : User) :
    resolve_permissions db u = (resolved_features db u).map Feature.code := rfl

/-- The second component of the resolution is the built tree (empty input
short-circuits to the empty forest). -/
theorem resolve_menus_eq (db : DB) (u : User) :
    resolve_menus db u =
      if !(resolved_menu_rows db u).isEmpty
      then build_menu_tree (resolved_menu_rows db u) else [] := rfl

/-- Flipping role `is_active` flags arbitrarily does not change the
resolution at all: nothing in the resolver reads `Role.is_active`. -/
theorem resolve_active_invariant (db : DB) (u : User) (g : Role → Bool) :
    resolve_user_permissions_and_menus
        { db with roles := db.roles.map (fun r => { r with is_active := g r }) }
        u
      = resolve_user_permissions_and_menus db u := by
  have hgur : ∀ uid : Int,
      get_user_roles
          { db with roles := db.roles.map (fun r => { r with is_active := g r }) }
          uid
        = (get_user_roles db uid).map (fun r => { r with is_active := g r }) :=
    fun uid => get_user_roles_active_invariant db uid g
  have hids : ∀ uid : Int,
      ((get_user_roles db uid).map (fun r => { r with is_active := g r })).map
          Role.id
        = (get_user_roles db uid).map Role.id := by
    intro uid
    rw [List.map_map]
    rfl
  have hcodes : ∀ uid : Int,
      ((get_user_roles db uid).map (fun r => { r with is_active := g r })).map
          (fun r => str_lower r.code)
        = (get_user_roles db uid).map (fun r => str_lower r.code) := by
    intro uid
    rw [List.map_map]
    rfl
  have hsuper : is_super_admin
      { db with roles := db.roles.map (fun r => { r with is_active := g r }) } u
      = is_super_admin db u := by
    simp only [is_super_admin, hgur, hcodes]
  simp only [resolve_user_permissions_and_menus, resolved_features,
    resolved_menu_rows, candidate_menu_rows, is_super_admin, hgur, hcodes,
    hids]

/--
C8.  Role resolver ignores the active flag: membership in
`get_user_roles` is exactly "joined through `user_roles` and not deleted"
(no `is_active` condition), the resolver commutes with arbitrary rewrites
of the `is_active` column, and the whole permission/menu resolution is
invariant under such rewrites (activity filtering happens only on
features and menus).
-/
theorem claim_C8_role_resolver_ignores_active_flag :
    (∀ (db : DB) (uid : Int) (r : Role),
      r ∈ get_user_roles db uid ↔
        r ∈ db.roles ∧ r.is_deleted = false ∧
          ∃ ur ∈ db.user_roles, ur.1 = uid ∧ ur.2 = r.id) ∧
    (∀ (db : DB) (uid : Int) (g : Role → Bool),
      get_user_roles
          { db with
            roles := db.roles.map (fun r => { r with is_active := g r }) } uid
        = (get_user_roles db uid).map (fun r => { r with is_active := g r })) ∧
    (∀ (db : DB) (u : User) (g : Role → Bool),
      resolve_user_permissions_and_menus
          { db with
            roles := db.roles.map (fun r => { r with is_active := g r }) } u
        = resolve_user_permissions_and_menus db u) :=
  ⟨fun _ _ _ => mem_get_user_roles,
   fun db uid g => get_user_roles_active_invariant db uid g,
   fun db u g => resolve_active_invariant db u g⟩

/--
C2.  Super-admin determination and completeness: `is_super_admin` holds
exactly for legacy `SUPER_ADMIN`, legacy `ADMIN` with a null tenant, or a
resolved role whose code case-insensitively equals `SYSTEM_ADMIN`; and for
such users the permission codes are exactly the codes of all non-deleted
active features (a formula independent of the role assignments).
-/
theorem claim_C2_super_admin_determination :
    (∀ (db : DB) (u : User),
      is_super_admin db u = true ↔
        (u.role = UserRole.SUPER_ADMIN ∨
          (u.role = UserRole.ADMIN ∧ u.tenant_id = none) ∨
          ∃ r ∈ get_user_roles db u.id,
            str_lower r.code = str_lower SYSTEM_ADMIN_ROLE_CODE)) ∧
    (∀ (db : DB) (u : User), is_super_admin db u = true →
      resolve_permissions db u =
        (db.features.filter
            (fun f => decide (f.is_deleted = false ∧ f.is_active = true))).map
          Feature.code) := by
  constructor
  · intro db u
    simp only [is_super_admin, Bool.or_eq_true, Bool.and_eq_true,
      beq_iff_eq, List.elem_iff, List.mem_map]
    constructor
    · rintro ((h | ⟨h1, h2⟩) | ⟨r, hr, hc⟩)
      · exact Or.inl h
      · exact Or.inr (Or.inl ⟨h1, h2⟩)
      · exact Or.inr (Or.inr ⟨r, hr, hc⟩)
    · rintro (h | ⟨h1, h2⟩ | ⟨r, hr, hc⟩)
      · exact Or.inl (Or.inl h)
      · exact Or.inl (Or.inr ⟨h1, h2⟩)
      · exact Or.inr ⟨r, hr, hc⟩
  · intro db u h
    rw [resolve_permissions_eq]
    have hsel : resolved_features db u =
        db.features.filter (fun f => !f.is_deleted && f.is_active) := by
      simp only [resolved_features]
      rw [if_pos h]
    rw [hsel]
    congr 1
    apply List.filter_congr
    intro f _
    cases hd : f.is_deleted <;> cases ha : f.is_active <;> simp [hd, ha]

theorem mem_resolved_features_not_super {db : DB} {u : User}
    (h : is_super_admin db u = false) {f : Feature} :
    f ∈ resolved_features db u ↔
      f ∈ db.features ∧ f.is_deleted = false ∧ f.is_active = true ∧
        ∃ r ∈ get_user_roles db u.id, (r.id, f.id) ∈ db.role_features := by
  have hns : ¬ (is_super_admin db u = true) := by simp [h]
  simp only [resolved_features]
  rw [if_neg hns]
  by_cases hro : ((get_user_roles db u.id).map Role.id).isEmpty
  · rw [if_neg (by simp [hro])]
    have hnil : get_user_roles db u.id = [] :=
      List.map_eq_nil_iff.mp (List.isEmpty_iff.mp hro)
    simp [hnil]
  · rw [if_pos (by simp [hro])]
    rw [List.mem_dedup, List.mem_filter]
    constructor
    · rintro ⟨h1, h2⟩
      obtain ⟨⟨hany, hdel⟩, hact⟩ := by
        simpa only [Bool.and_eq_true, Bool.not_eq_true'] using h2
      rw [List.any_eq_true] at hany
      obtain ⟨rf, hrfmem, hpred⟩ := hany
      obtain ⟨hid2, hcont⟩ := by
        simpa only [Bool.and_eq_true] using hpred
      have hid3 : rf.2 = f.id := eq_of_beq hid2
      have hcont2 : rf.1 ∈ (get_user_roles db u.id).map Role.id :=
        List.elem_iff.mp hcont
      obtain ⟨r, hr, hrid⟩ := List.mem_map.mp hcont2
      refine ⟨h1, hdel, hact, r, hr, ?_⟩
      obtain ⟨a, b⟩ := rf
      have : ((r.id, f.id) : Int × Int) = (a, b) := by
        simp only at hid3 hrid
        rw [hid3, hrid]
      rw [this]
      exact hrfmem
    · rintro ⟨h1, hdel, hact, r, hr, hrf⟩
      refine ⟨h1, ?_⟩
      simp only [Bool.and_eq_true, Bool.not_eq_true', List.any_eq_true]
      exact ⟨⟨⟨(r.id, f.id), hrf, by simp,
        List.elem_iff.mpr (List.mem_map.mpr ⟨r, hr, rfl⟩)⟩, hdel⟩, hact⟩

/--
C3.  Non-super-admin permission aggregation: the permission codes are
exactly the codes of features joined through `role_features` to some
resolved role, filtered to non-deleted active features; with zero resolved
roles both the permission list and the menu forest are empty (no fallback
to the all-features set).
-/
theorem claim_C3_non_super_admin_aggregation (db : DB) (u : User)
    (h : is_super_admin db u = false) :
    (∀ c : String, c ∈ resolve_permissions db u ↔
      ∃ f ∈ db.features, f.code = c ∧ f.is_deleted = false ∧
        f.is_active = true ∧
        ∃ r ∈ get_user_roles db u.id, (r.id, f.id) ∈ db.role_features) ∧
    (get_user_roles db u.id = [] →
      resolve_permissions db u = [] ∧ resolve_menus db u = []) := by
  constructor
  · intro c
    rw [resolve_permissions_eq, List.mem_map]
    constructor
    · rintro ⟨f, hf, rfl⟩
      rcases (mem_resolved_features_not_super h).mp hf with ⟨h1, h2, h3, h4⟩
      exact ⟨f, h1, rfl, h2, h3, h4⟩
    · rintro ⟨f, h1, rfl, h2, h3, h4⟩
      exact ⟨f, (mem_resolved_features_not_super h).mpr ⟨h1, h2, h3, h4⟩, rfl⟩
  · intro hnil
    have hns : ¬ (is_super_admin db u = true) := by simp [h]
    have hfeat : resolved_features db u = [] := by
      simp only [resolved_features]
      rw [if_neg hns, hnil]
      simp
    have hcand : candidate_menu_rows db u = [] := by
      simp only [candidate_menu_rows]
      rw [if_neg hns, hnil]
      simp
    have hrows : resolved_menu_rows db u = [] := by
      unfold resolved_menu_rows
      rw [hcand]
      rfl
    constructor
    · rw [resolve_permissions_eq, hfeat]
      rfl
    · rw [resolve_menus_eq, hrows]
      rfl

/--
C4.  Full-replace semantics and idempotence of the three assignment
mutators: after a call the owner's association pairs are exactly the given
id list (whatever the prior state), a repeated call with the same list is
a no-op on the whole store, and the empty list leaves the owner with no
associations.
-/
theorem claim_C4_full_replace_idempotence :
    (∀ (db : DB) (u : User) (L : List Int),
      (∀ rid, (u.id, rid) ∈ (set_user_roles db u L).user_roles ↔ rid ∈ L) ∧
      set_user_roles (set_user_roles db u L) u L = set_user_roles db u L ∧
      (∀ rid, (u.id, rid) ∉ (set_user_roles db u []).user_roles)) ∧
    (∀ (db : DB) (role : Role) (L : List Int),
      (∀ mid, (role.id, mid) ∈ (set_role_menus db role L).role_menus ↔
        mid ∈ L) ∧
      set_role_menus (set_role_menus db role L) role L =
        set_role_menus db role L ∧
      (∀ mid, (role.id, mid) ∉ (set_role_menus db role []).role_menus)) ∧
    (∀ (db : DB) (role : Role) (L : List Int),
      (∀ fid, (role.id, fid) ∈ (set_role_features db role L).role_features ↔
        fid ∈ L) ∧
      set_role_features (set_role_features db role L) role L =
        set_role_features db role L ∧
      (∀ fid, (role.id, fid) ∉ (set_role_features db role []).role_features)) := by
  refine ⟨fun db u L => ⟨fun rid => replace_assoc_mem, ?_, ?_⟩,
    fun db role L => ⟨fun mid => replace_assoc_mem, ?_, ?_⟩,
    fun db role L => ⟨fun fid => replace_assoc_mem, ?_, ?_⟩⟩
  · simp only [set_user_roles]
    rw [replace_assoc_idem]
  · intro rid hmem
    exact (List.not_mem_nil rid) (replace_assoc_mem.mp hmem)
  · simp only [set_role_menus]
    rw [replace_assoc_idem]
  · intro mid hmem
    exact (List.not_mem_nil mid) (replace_assoc_mem.mp hmem)
  · simp only [set_role_features]
    rw [replace_assoc_idem]
  · intro fid hmem
    exact (List.not_mem_nil fid) (replace_assoc_mem.mp hmem)

/--
C1.  Tenant isolation of menu resolution: a menu row with a non-null
tenant id different from the user's never appears (by id) anywhere in the
resolved menu forest, super-admin or not; and in both branches a candidate
menu row is kept exactly when its tenant id is null or equals the user's.
-/
theorem claim_C1_tenant_isolation (db : DB) (u : User)
    (hnd : (db.menus.map Menu.id).Nodup)
    (M : Menu) (hM : M ∈ db.menus) (t : Int)
    (ht : M.tenant_id = some t) (hu : u.tenant_id ≠ some t) :
    countIdForest M.id (resolve_menus db u) = 0 ∧
    (∀ m : Menu, m ∈ resolved_menu_rows db u ↔
      m ∈ candidate_menu_rows db u ∧
        (m.tenant_id = none ∨ m.tenant_id = u.tenant_id)) := by
  refine ⟨?_, fun m => mem_resolved_menu_rows⟩
  rw [resolve_menus_eq]
  by_cases he : (resolved_menu_rows db u).isEmpty
  · rw [if_neg (by simp [he])]
    rfl
  · rw [if_pos (by simp [he])]
    by_contra hne
    have hpos : 1 ≤ countIdForest M.id
        (build_menu_tree (resolved_menu_rows db u)) :=
      Nat.one_le_iff_ne_zero.mpr hne
    obtain ⟨r, hr, hrid, _⟩ := countIdForest_build_pos _ hpos
    have hrc := mem_resolved_menu_rows.mp hr
    have hrdb : r ∈ db.menus := candidate_menu_rows_subset db u hrc.1
    have : r = M := id_inj hnd hrdb hM hrid
    subst this
    rcases hrc.2 with h0 | h0
    · rw [ht] at h0
      cases h0
    · rw [ht] at h0
      exact hu h0.symm

/-- Concrete rows of testable property P4. -/
def mA : Menu := ⟨1, none, none, "A", none, none, 2, 1, true, false⟩

def mB : Menu := ⟨2, none, none, "B", none, none, 1, 1, true, false⟩

def mC : Menu := ⟨3, none, some 1, "C", none, none, 1, 2, true, false⟩

def exMenus : List Menu := [mA, mB, mC]

/--
C6.  Menu tree ordering: every partition of the builder is the sorted
(by `(sort_order, id)`) permutation of the rows sharing that parent, and
on the P4 input the forest is roots `[id 2, id 1]` with id 1 carrying the
single child id 3.
-/
theorem claim_C6_tree_ordering :
    build_menu_tree exMenus =
      [MenuNode.mk 2 "B" none none [],
       MenuNode.mk 1 "A" none none [MenuNode.mk 3 "C" none none []]] ∧
    (∀ (ms : List Menu) (pid : Option Int),
      (childrenOf ms pid).Perm (ms.filter (fun m => m.parent_id == pid)) ∧
      List.Sorted menuLe (childrenOf ms pid)) := by
  constructor
  · rfl
  · intro ms pid
    exact ⟨List.perm_insertionSort menuLe _,
      List.sorted_insertionSort menuLe _⟩

/--
C7.  Orphan dropping: a row whose parent id matches no row id of the
input appears nowhere in the built forest, neither as a root nor as a
descendant.
-/
theorem claim_C7_orphan_dropping (ms : List Menu)
    (hnd : (ms.map Menu.id).Nodup) (o : Menu) (ho : o ∈ ms)
    (p0 : Int) (hp : o.parent_id = some p0)
    (hnp : p0 ∉ ms.map Menu.id) :
    countIdForest o.id (build_menu_tree ms) = 0 := by
  by_contra hne
  have hpos := Nat.one_le_iff_ne_zero.mpr hne
  obtain ⟨r, hr, hrid, hcase⟩ := countIdForest_build_pos _ hpos
  have : r = o := id_inj hnd hr ho hrid
  subst this
  rcases hcase with h0 | ⟨p, hpmem, hpp⟩
  · rw [hp] at h0
    cases h0
  · rw [hp] at hpp
    have hpe : p0 = p.id := Option.some.inj hpp
    apply hnp
    rw [hpe]
    exact List.mem_map.mpr ⟨p, hpmem, rfl⟩

/--
C9.  Two-level depth: if every row has level 1 or 2, level-1 rows have a
null parent and level-2 rows point at level-1 rows, then no child of a
root in the built forest has children of its own.
-/
theorem claim_C9_two_level_depth (ms : List Menu)
    (hlv : ∀ m ∈ ms, (m.level = 1 ∨ m.level = 2) ∧
      (m.level = 1 → m.parent_id = none) ∧
      (m.level = 2 → m.parent_id ≠ none ∧
        ∀ p ∈ ms, m.parent_id = some p.id → p.level = 1)) :
    ∀ root ∈ build_menu_tree ms, ∀ c ∈ root.children, c.children = [] := by
  intro root hroot c hc
  unfold build_menu_tree buildMenuTreeFuel at hroot
  obtain ⟨r, hr, rfl⟩ := List.mem_map.mp hroot
  obtain ⟨hrm, hrp⟩ := mem_childrenOf.mp hr
  rcases hLen : ms.length with _ | a
  · exfalso
    have : ms = [] := List.length_eq_zero.mp hLen
    subst this
    cases hrm
  · rw [hLen] at hc
    simp only [toNode, MenuNode.children] at hc
    obtain ⟨crow, hcrow, rfl⟩ := List.mem_map.mp hc
    obtain ⟨hcm, hcp⟩ := mem_childrenOf.mp hcrow
    have hclv := hlv crow hcm
    have hc2 : crow.level = 2 := by
      rcases hclv.1 with h1 | h2
      · exfalso
        have := hclv.2.1 h1
        rw [hcp] at this
        cases this
      · exact h2
    have hempty : childrenOf ms (some crow.id) = [] := by
      rw [List.eq_nil_iff_forall_not_mem]
      intro g hg
      obtain ⟨hgm, hgp⟩ := mem_childrenOf.mp hg
      have hglv := hlv g hgm
      have hg2 : g.level = 2 := by
        rcases hglv.1 with h1 | h2
        · exfalso
          have := hglv.2.1 h1
          rw [hgp] at this
          cases this
        · exact h2
      have := (hglv.2.2 hg2).2 crow hcm hgp
      omega
    cases a with
    | zero => rfl
    | succ b =>
        simp only [toNode, MenuNode.children, hempty, List.map_nil]

/--
C10.  Termination and no duplication: with pairwise-distinct ids (even
with cyclic parent references, which are unreachable from the roots) any
fuel of at least the row count gives the same forest as the chosen fuel,
and no id labels more than one node of the forest.
-/
theorem claim_C10_termination_no_duplication (ms : List Menu)
    (hnd : (ms.map Menu.id).Nodup) :
    (∀ f : Nat, ms.length ≤ f →
      buildMenuTreeFuel ms f = build_menu_tree ms) ∧
    (∀ i : Int, countIdForest i (build_menu_tree ms) ≤ 1) :=
  ⟨fun _ hf => buildMenuTreeFuel_eq hnd hf,
   fun i => countIdForest_build_le_one hnd i⟩

/-!
## Transactional behaviour of the assignment mutators

Modelled from the spec: the delete/insert sequence of `set_role_features`
runs inside one SQLAlchemy session transaction, the store enforces the
foreign-key constraint on inserted feature ids, and on any failure the
transaction is rolled back so the pre-existing rows stay observable
(spec §5, §7; the session/commit/rollback machinery lives in SQLAlchemy
and the database driver, outside this repository's sources).
-/

/-- Modelled from the spec: inserting one `role_features` row, with the
store checking the foreign-key constraint on the feature id. -/
def insert_role_feature (db : DB) (rid fid : Int) : Except String DB :=
  if db.features.any (fun f => f.id == fid) then
    .ok { db with role_features := db.role_features ++ [(rid, fid)] }
  else
    .error "FOREIGN KEY constraint violated: feature id does not exist"

/-- The delete-then-insert body of `set_role_features`, each insert
checked against the foreign-key constraint. -/
def set_role_features_step (db : DB) (role : Role) (fids : List Int) :
    Except String DB :=
  fids.foldlM (fun d fid => insert_role_feature d role.id fid)
    { db with role_features :=
        db.role_features.filter (fun rf => !(rf.1 == role.id)) }

/-- Modelled from the spec: running the body in one transaction — commit
on success, full rollback (observable state unchanged) on failure. -/
def set_role_features_tx (db : DB) (role : Role) (fids : List Int) :
    Except String DB × DB :=
  match set_role_features_step db role fids with
  | .ok db2 => (.ok db2, db2)
  | .error e => (.error e, db)

theorem insert_role_feature_features {db : DB} {rid fid : Int} {d : DB}
    (h : insert_role_feature db rid fid = .ok d) :
    d.features = db.features := by
  unfold insert_role_feature at h
  split at h
  · cases h
    rfl
  · cases h

theorem insert_fold_ok {rid : Int} :
    ∀ (fids : List Int) (d d2 : DB),
      fids.foldlM (fun d fid => insert_role_feature d rid fid) d = .ok d2 →
      d2 = { d with role_features :=
        d.role_features ++ fids.map (fun fid => (rid, fid)) } := by
  intro fids
  induction fids with
  | nil =>
      intro d d2 h
      simp only [List.foldlM_nil] at h
      cases h
      simp
  | cons x xs ih =>
      intro d d2 h
      rw [List.foldlM_cons] at h
      rcases hins : insert_role_feature d rid x with e | d1
      · rw [hins] at h
        exact Except.noConfusion h
      · rw [hins] at h
        have h2 : xs.foldlM (fun d fid => insert_role_feature d rid fid) d1
            = .ok d2 := h
        have hd2 := ih d1 d2 h2
        unfold insert_role_feature at hins
        split at hins
        · cases hins
          rw [hd2]
          simp
        · exact Except.noConfusion hins

theorem insert_fold_err {rid : Int} :
    ∀ (fids : List Int) (d : DB),
      (∃ fid ∈ fids, ∀ f ∈ d.features, f.id ≠ fid) →
      ∃ e, fids.foldlM (fun d fid => insert_role_feature d rid fid) d
        = .error e := by
  intro fids
  induction fids with
  | nil =>
      intro d h
      rcases h with ⟨fid, hmem, _⟩
      cases hmem
  | cons x xs ih =>
      intro d h
      rw [List.foldlM_cons]
      rcases hins : insert_role_feature d rid x with e | d1
      · exact ⟨e, rfl⟩
      · rcases h with ⟨fid, hmem, hbad⟩
        rcases List.mem_cons.mp hmem with rfl | hmem2
        · exfalso
          unfold insert_role_feature at hins
          split at hins
          · rename_i hany
            rw [List.any_eq_true] at hany
            rcases hany with ⟨f, hf, hfe⟩
            exact hbad f hf (eq_of_beq hfe)
          · exact Except.noConfusion hins
        · have hfeat := insert_role_feature_features hins
          rcases ih d1 ⟨fid, hmem2, by rw [hfeat]; exact hbad⟩ with ⟨e, he⟩
          exact ⟨e, he⟩

/-- The transactional triple for `set_role_features`: foreign-key failure
reports an error with the observable state exactly the pre-call state, no
third state is observable, and all-valid ids commit the full replacement. -/
theorem set_role_features_tx_spec (db : DB) (role : Role)
    (fids : List Int) :
    ((∃ fid ∈ fids, ∀ f ∈ db.features, f.id ≠ fid) →
      ∃ e, set_role_features_tx db role fids = (.error e, db)) ∧
    (∀ out, set_role_features_tx db role fids = out →
      out.2 = db ∨ out.2 = set_role_features db role fids) ∧
    ((∀ fid ∈ fids, ∃ f ∈ db.features, f.id = fid) →
      set_role_features_tx db role fids =
        (.ok (set_role_features db role fids),
         set_role_features db role fids)) := by
  refine ⟨?_, ?_, ?_⟩
  · intro hbad
    have hfeat : ({ db with role_features :=
        db.role_features.filter (fun rf => !(rf.1 == role.id)) } : DB).features
        = db.features := rfl
    rcases insert_fold_err fids _ (by rw [hfeat]; exact hbad) with ⟨e, he⟩
    refine ⟨e, ?_⟩
    unfold set_role_features_tx set_role_features_step
    rw [he]
  · intro out hout
    unfold set_role_features_tx at hout
    rcases hstep : set_role_features_step db role fids with e | d2
    · rw [hstep] at hout
      cases hout
      exact Or.inl rfl
    · rw [hstep] at hout
      cases hout
      right
      have := insert_fold_ok fids _ _ hstep
      rw [this]
      rfl
  · intro hgood
    have hok : ∃ d2, set_role_features_step db role fids = .ok d2 := by
      have hgen : ∀ (l : List Int) (d : DB),
          (∀ fid ∈ l, ∃ f ∈ d.features, f.id = fid) →
          ∃ d2, l.foldlM (fun d fid => insert_role_feature d role.id fid) d
            = .ok d2 := by
        intro l
        induction l with
        | nil =>
            intro d _
            exact ⟨d, rfl⟩
        | cons x xs ihl =>
            intro d hg
            rcases hins : insert_role_feature d role.id x with e2 | d1
            · exfalso
              unfold insert_role_feature at hins
              split at hins
              · exact Except.noConfusion hins
              · rename_i hnone
                rcases hg x (List.mem_cons_self _ _) with ⟨f, hf, hfe⟩
                apply hnone
                rw [List.any_eq_true]
                exact ⟨f, hf, beq_iff_eq.mpr hfe⟩
            · have hfeat := insert_role_feature_features hins
              rcases ihl d1 (fun fid hfid => by
                  rw [hfeat]
                  exact hg fid (List.mem_cons_of_mem _ hfid)) with ⟨d2, hd2⟩
              refine ⟨d2, ?_⟩
              rw [List.foldlM_cons, hins]
              exact hd2
      exact hgen fids _ (fun fid hfid => hgood fid hfid)
    rcases hok with ⟨d2, hd2⟩
    have heq : d2 = set_role_features db role fids := by
      have := insert_fold_ok fids _ _ hd2
      rw [this]
      rfl
    unfold set_role_features_tx
    rw [hd2, heq]

/-- Modelled from the spec: inserting one `user_roles` row, with the
store checking the foreign-key constraint on the role id. -/
def insert_user_role (db : DB) (uid rid : Int) : Except String DB :=
  if db.roles.any (fun r => r.id == rid) then
    .ok { db with user_roles := db.user_roles ++ [(uid, rid)] }
  else
    .error "FOREIGN KEY constraint violated: role id does not exist"

/-- The delete-then-insert body of `set_user_roles`, each insert checked
against the foreign-key constraint. -/
def set_user_roles_step (db : DB) (user : User) (rids : List Int) :
    Except String DB :=
  rids.foldlM (fun d rid => insert_user_role d user.id rid)
    { db with user_roles :=
        db.user_roles.filter (fun ur => !(ur.1 == user.id)) }

/-- Modelled from the spec: `set_user_roles` run in one transaction —
commit on success, full rollback (observable state unchanged) on failure. -/
def set_user_roles_tx (db : DB) (user : User) (rids : List Int) :
    Except String DB × DB :=
  match set_user_roles_step db user rids with
  | .ok db2 => (.ok db2, db2)
  | .error e => (.error e, db)

/-- Modelled from the spec: inserting one `role_menus` row, with the
store checking the foreign-key constraint on the menu id. -/
def insert_role_menu (db : DB) (rid mid : Int) : Except String DB :=
  if db.menus.any (fun m => m.id == mid) then
    .ok { db with role_menus := db.role_menus ++ [(rid, mid)] }
  else
    .error "FOREIGN KEY constraint violated: menu id does not exist"

/-- The delete-then-insert body of `set_role_menus`, each insert checked
against the foreign-key constraint. -/
def set_role_menus_step (db : DB) (role : Role) (mids : List Int) :
    Except String DB :=
  mids.foldlM (fun d mid => insert_role_menu d role.id mid)
    { db with role_menus :=
        db.role_menus.filter (fun rm => !(rm.1 == role.id)) }

/-- Modelled from the spec: `set_role_menus` run in one transaction —
commit on success, full rollback (observable state unchanged) on failure. -/
def set_role_menus_tx (db : DB) (role : Role) (mids : List Int) :
    Except String DB × DB :=
  match set_role_menus_step db role mids with
  | .ok db2 => (.ok db2, db2)
  | .error e => (.error e, db)

theorem insert_user_role_roles {db : DB} {uid rid : Int} {d : DB}
    (h : insert_user_role db uid rid = .ok d) : d.roles = db.roles := by
  unfold insert_user_role at h
  split at h
  · cases h
    rfl
  · cases h

theorem insert_user_fold_ok {uid : Int} :
    ∀ (rids : List Int) (d d2 : DB),
      rids.foldlM (fun d rid => insert_user_role d uid rid) d = .ok d2 →
      d2 = { d with user_roles :=
        d.user_roles ++ rids.map (fun rid => (uid, rid)) } := by
  intro rids
  induction rids with
  | nil =>
      intro d d2 h
      simp only [List.foldlM_nil] at h
      cases h
      simp
  | cons x xs ih =>
      intro d d2 h
      rw [List.foldlM_cons] at h
      rcases hins : insert_user_role d uid x with e | d1
      · rw [hins] at h
        exact Except.noConfusion h
      · rw [hins] at h
        have h2 : xs.foldlM (fun d rid => insert_user_role d uid rid) d1
            = .ok d2 := h
        have hd2 := ih d1 d2 h2
        unfold insert_user_role at hins
        split at hins
        · cases hins
          rw [hd2]
          simp
        · exact Except.noConfusion hins

theorem insert_user_fold_err {uid : Int} :
    ∀ (rids : List Int) (d : DB),
      (∃ rid ∈ rids, ∀ r ∈ d.roles, r.id ≠ rid) →
      ∃ e, rids.foldlM (fun d rid => insert_user_role d uid rid) d
        = .error e := by
  intro rids
  induction rids with
  | nil =>
      intro d h
      rcases h with ⟨rid, hmem, _⟩
      cases hmem
  | cons x xs ih =>
      intro d h
      rw [List.foldlM_cons]
      rcases hins : insert_user_role d uid x with e | d1
      · exact ⟨e, rfl⟩
      · rcases h with ⟨rid, hmem, hbad⟩
        rcases List.mem_cons.mp hmem with rfl | hmem2
        · exfalso
          unfold insert_user_role at hins
          split at hins
          · rename_i hany
            rw [List.any_eq_true] at hany
            rcases hany with ⟨r, hr, hre⟩
            exact hbad r hr (eq_of_beq hre)
          · exact Except.noConfusion hins
        · have hrole := insert_user_role_roles hins
          rcases ih d1 ⟨rid, hmem2, by rw [hrole]; exact hbad⟩ with ⟨e, he⟩
          exact ⟨e, he⟩

theorem insert_role_menu_menus {db : DB} {rid mid : Int} {d : DB}
    (h : insert_role_menu db rid mid = .ok d) : d.menus = db.menus := by
  unfold insert_role_menu at h
  split at h
  · cases h
    rfl
  · cases h

theorem insert_menu_fold_ok {rid : Int} :
    ∀ (mids : List Int) (d d2 : DB),
      mids.foldlM (fun d mid => insert_role_menu d rid mid) d = .ok d2 →
      d2 = { d with role_menus :=
        d.role_menus ++ mids.map (fun mid => (rid, mid)) } := by
  intro mids
  induction mids with
  | nil =>
      intro d d2 h
      simp only [List.foldlM_nil] at h
      cases h
      simp
  | cons x xs ih =>
      intro d d2 h
      rw [List.foldlM_cons] at h
      rcases hins : insert_role_menu d rid x with e | d1
      · rw [hins] at h
        exact Except.noConfusion h
      · rw [hins] at h
        have h2 : xs.foldlM (fun d mid => insert_role_menu d rid mid) d1
            = .ok d2 := h
        have hd2 := ih d1 d2 h2
        unfold insert_role_menu at hins
        split at hins
        · cases hins
          rw [hd2]
          simp
        · exact Except.noConfusion hins

theorem insert_menu_fold_err {rid : Int} :
    ∀ (mids : List Int) (d : DB),
      (∃ mid ∈ mids, ∀ m ∈ d.menus, m.id ≠ mid) →
      ∃ e, mids.foldlM (fun d mid => insert_role_menu d rid mid) d
        = .error e := by
  intro mids
  induction mids with
  | nil =>
      intro d h
      rcases h with ⟨mid, hmem, _⟩
      cases hmem
  | cons x xs ih =>
      intro d h
      rw [List.foldlM_cons]
      rcases hins : insert_role_menu d rid x with e | d1
      · exact ⟨e, rfl⟩
      · rcases h with ⟨mid, hmem, hbad⟩
        rcases List.mem_cons.mp hmem with rfl | hmem2
        · exfalso
          unfold insert_role_menu at hins
          split at hins
          · rename_i hany
            rw [List.any_eq_true] at hany
            rcases hany with ⟨m, hm, hme⟩
            exact hbad m hm (eq_of_beq hme)
          · exact Except.noConfusion hins
        · have hmenu := insert_role_menu_menus hins
          rcases ih d1 ⟨mid, hmem2, by rw [hmenu]; exact hbad⟩ with ⟨e, he⟩
          exact ⟨e, he⟩

/-- The transactional triple for `set_user_roles`, analogous to
`set_role_features_tx_spec`. -/
theorem set_user_roles_tx_spec (db : DB) (user : User) (rids : List Int) :
    ((∃ rid ∈ rids, ∀ r ∈ db.roles, r.id ≠ rid) →
      ∃ e, set_user_roles_tx db user rids = (.error e, db)) ∧
    (∀ out, set_user_roles_tx db user rids = out →
      out.2 = db ∨ out.2 = set_user_roles db user rids) ∧
    ((∀ rid ∈ rids, ∃ r ∈ db.roles, r.id = rid) →
      set_user_roles_tx db user rids =
        (.ok (set_user_roles db user rids),
         set_user_roles db user rids)) := by
  refine ⟨?_, ?_, ?_⟩
  · intro hbad
    have hrole : ({ db with user_roles :=
        db.user_roles.filter (fun ur => !(ur.1 == user.id)) } : DB).roles
        = db.roles := rfl
    rcases insert_user_fold_err rids _ (by rw [hrole]; exact hbad) with
      ⟨e, he⟩
    refine ⟨e, ?_⟩
    unfold set_user_roles_tx set_user_roles_step
    rw [he]
  · intro out hout
    unfold set_user_roles_tx at hout
    rcases hstep : set_user_roles_step db user rids with e | d2
    · rw [hstep] at hout
      cases hout
      exact Or.inl rfl
    · rw [hstep] at hout
      cases hout
      right
      have := insert_user_fold_ok rids _ _ hstep
      rw [this]
      rfl
  · intro hgood
    have hok : ∃ d2, set_user_roles_step db user rids = .ok d2 := by
      have hgen : ∀ (l : List Int) (d : DB),
          (∀ rid ∈ l, ∃ r ∈ d.roles, r.id = rid) →
          ∃ d2, l.foldlM (fun d rid => insert_user_role d user.id rid) d
            = .ok d2 := by
        intro l
        induction l with
        | nil =>
            intro d _
            exact ⟨d, rfl⟩
        | cons x xs ihl =>
            intro d hg
            rcases hins : insert_user_role d user.id x with e2 | d1
            · exfalso
              unfold insert_user_role at hins
              split at hins
              · exact Except.noConfusion hins
              · rename_i hnone
                rcases hg x (List.mem_cons_self _ _) with ⟨r, hr, hre⟩
                apply hnone
                rw [List.any_eq_true]
                exact ⟨r, hr, beq_iff_eq.mpr hre⟩
            · have hrole := insert_user_role_roles hins
              rcases ihl d1 (fun rid hrid => by
                  rw [hrole]
                  exact hg rid (List.mem_cons_of_mem _ hrid)) with ⟨d2, hd2⟩
              refine ⟨d2, ?_⟩
              rw [List.foldlM_cons, hins]
              exact hd2
      exact hgen rids _ (fun rid hrid => hgood rid hrid)
    rcases hok with ⟨d2, hd2⟩
    have heq : d2 = set_user_roles db user rids := by
      have := insert_user_fold_ok rids _ _ hd2
      rw [this]
      rfl
    unfold set_user_roles_tx
    rw [hd2, heq]

/-- The transactional triple for `set_role_menus`, analogous to
`set_role_features_tx_spec`. -/
theorem set_role_menus_tx_spec (db : DB) (role : Role) (mids : List Int) :
    ((∃ mid ∈ mids, ∀ m ∈ db.menus, m.id ≠ mid) →
      ∃ e, set_role_menus_tx db role mids = (.error e, db)) ∧
    (∀ out, set_role_menus_tx db role mids = out →
      out.2 = db ∨ out.2 = set_role_menus db role mids) ∧
    ((∀ mid ∈ mids, ∃ m ∈ db.menus, m.id = mid) →
      set_role_menus_tx db role mids =
        (.ok (set_role_menus db role mids),
         set_role_menus db role mids)) := by
  refine ⟨?_, ?_, ?_⟩
  · intro hbad
    have hmenu : ({ db with role_menus :=
        db.role_menus.filter (fun rm => !(rm.1 == role.id)) } : DB).menus
        = db.menus := rfl
    rcases insert_menu_fold_err mids _ (by rw [hmenu]; exact hbad) with
      ⟨e, he⟩
    refine ⟨e, ?_⟩
    unfold set_role_menus_tx set_role_menus_step
    rw [he]
  · intro out hout
    unfold set_role_menus_tx at hout
    rcases hstep : set_role_menus_step db role mids with e | d2
    · rw [hstep] at hout
      cases hout
      exact Or.inl rfl
    · rw [hstep] at hout
      cases hout
      right
      have := insert_menu_fold_ok mids _ _ hstep
      rw [this]
      rfl
  · intro hgood
    have hok : ∃ d2, set_role_menus_step db role mids = .ok d2 := by
      have hgen : ∀ (l : List Int) (d : DB),
          (∀ mid ∈ l, ∃ m ∈ d.menus, m.id = mid) →
          ∃ d2, l.foldlM (fun d mid => insert_role_menu d role.id mid) d
            = .ok d2 := by
        intro l
        induction l with
        | nil =>
            intro d _
            exact ⟨d, rfl⟩
        | cons x xs ihl =>
            intro d hg
            rcases hins : insert_role_menu d role.id x with e2 | d1
            · exfalso
              unfold insert_role_menu at hins
              split at hins
              · exact Except.noConfusion hins
              · rename_i hnone
                rcases hg x (List.mem_cons_self _ _) with ⟨m, hm, hme⟩
                apply hnone
                rw [List.any_eq_true]
                exact ⟨m, hm, beq_iff_eq.mpr hme⟩
            · have hmenu := insert_role_menu_menus hins
              rcases ihl d1 (fun mid hmid => by
                  rw [hmenu]
                  exact hg mid (List.mem_cons_of_mem _ hmid)) with ⟨d2, hd2⟩
              refine ⟨d2, ?_⟩
              rw [List.foldlM_cons, hins]
              exact hd2
      exact hgen mids _ (fun mid hmid => hgood mid hmid)
    rcases hok with ⟨d2, hd2⟩
    have heq : d2 = set_role_menus db role mids := by
      have := insert_menu_fold_ok mids _ _ hd2
      rw [this]
      rfl
    unfold set_role_menus_tx
    rw [hd2, heq]

/--
C5.  Transactional atomicity of all three assignment mutators (modelled
from the spec, §5/§7): for `set_role_features`, `set_user_roles` and
`set_role_menus` alike, an insert-phase foreign-key failure yields an
error with the observable state exactly the pre-call state (the delete is
rolled back too), the observable state is never anything but the pre-call
state or the fully replaced state, and when all target ids exist the
transaction commits the full replacement.
-/
theorem claim_C5_transactional_atomicity :
    (∀ (db : DB) (role : Role) (fids : List Int),
      ((∃ fid ∈ fids, ∀ f ∈ db.features, f.id ≠ fid) →
        ∃ e, set_role_features_tx db role fids = (.error e, db)) ∧
      (∀ out, set_role_features_tx db role fids = out →
        out.2 = db ∨ out.2 = set_role_features db role fids) ∧
      ((∀ fid ∈ fids, ∃ f ∈ db.features, f.id = fid) →
        set_role_features_tx db role fids =
          (.ok (set_role_features db role fids),
           set_role_features db role fids))) ∧
    (∀ (db : DB) (user : User) (rids : List Int),
      ((∃ rid ∈ rids, ∀ r ∈ db.roles, r.id ≠ rid) →
        ∃ e, set_user_roles_tx db user rids = (.error e, db)) ∧
      (∀ out, set_user_roles_tx db user rids = out →
        out.2 = db ∨ out.2 = set_user_roles db user rids) ∧
      ((∀ rid ∈ rids, ∃ r ∈ db.roles, r.id = rid) →
        set_user_roles_tx db user rids =
          (.ok (set_user_roles db user rids),
           set_user_roles db user rids))) ∧
    (∀ (db : DB) (role : Role) (mids : List Int),
      ((∃ mid ∈ mids, ∀ m ∈ db.menus, m.id ≠ mid) →
        ∃ e, set_role_menus_tx db role mids = (.error e, db)) ∧
      (∀ out, set_role_menus_tx db role mids = out →
        out.2 = db ∨ out.2 = set_role_menus db role mids) ∧
      ((∀ mid ∈ mids, ∃ m ∈ db.menus, m.id = mid) →
        set_role_menus_tx db role mids =
          (.ok (set_role_menus db role mids),
           set_role_menus db role mids))) :=
  ⟨set_role_features_tx_spec, set_user_roles_tx_spec, set_role_menus_tx_spec⟩

/-! ## Concrete instances -/

/-- A global menu visible to everyone. -/
def M1 : Menu := ⟨10, none, none, "Home", some "/home", none, 0, 1, true, false⟩

/-- A menu owned by tenant 2. -/
def M2 : Menu := ⟨20, some 2, none, "Other", some "/other", none, 0, 1, true, false⟩

def f1 : Feature := ⟨1, "ORDER_VIEW", true, false⟩

/-- A super-admin (legacy role) of tenant 1. -/
def u1 : User := ⟨1, some 1, UserRole.SUPER_ADMIN⟩

def db1 : DB :=
  { roles := [], features := [f1], menus := [M1, M2],
    user_roles := [], role_features := [], role_menus := [] }

theorem claim_C1_tenant_isolation_witness :
    countIdForest M2.id (resolve_menus db1 u1) = 0 ∧
    (∀ m : Menu, m ∈ resolved_menu_rows db1 u1 ↔
      m ∈ candidate_menu_rows db1 u1 ∧
        (m.tenant_id = none ∨ m.tenant_id = u1.tenant_id)) :=
  claim_C1_tenant_isolation db1 u1 (by decide) M2 (by decide) 2 rfl
    (by decide)

theorem claim_C2_super_admin_determination_witness :
    is_super_admin db1 u1 = true ∧
    resolve_permissions db1 u1 =
      (db1.features.filter
          (fun f => decide (f.is_deleted = false ∧ f.is_active = true))).map
        Feature.code :=
  ⟨rfl, claim_C2_super_admin_determination.2 db1 u1 rfl⟩

/-- A plain tenant-10 user holding the tenant role MANAGER. -/
def u3 : User := ⟨3, some 10, UserRole.USER⟩

def role10 : Role := ⟨10, some 10, "MANAGER", true, false⟩

def db3 : DB :=
  { roles := [role10], features := [f1], menus := [],
    user_roles := [(3, 10)], role_features := [(10, 1)], role_menus := [] }

theorem claim_C3_non_super_admin_aggregation_witness :
    is_super_admin db3 u3 = false ∧
    "ORDER_VIEW" ∈ resolve_permissions db3 u3 :=
  ⟨by decide,
   ((claim_C3_non_super_admin_aggregation db3 u3 (by decide)).1
       "ORDER_VIEW").mpr
     ⟨f1, by decide, rfl, rfl, rfl, role10, by decide, by decide⟩⟩

def role5 : Role := ⟨5, none, "OPS", true, false⟩

def db5 : DB :=
  { roles := [role5], features := [f1], menus := [],
    user_roles := [], role_features := [(5, 1)], role_menus := [] }

theorem claim_C5_transactional_atomicity_witness :
    (∃ e, set_role_features_tx db5 role5 [42] = (.error e, db5)) ∧
    (∃ e, set_user_roles_tx db5 u3 [77] = (.error e, db5)) ∧
    (∃ e, set_role_menus_tx db5 role5 [88] = (.error e, db5)) :=
  ⟨(claim_C5_transactional_atomicity.1 db5 role5 [42]).1
      ⟨42, by decide, by decide⟩,
   (claim_C5_transactional_atomicity.2.1 db5 u3 [77]).1
      ⟨77, by decide, by decide⟩,
   (claim_C5_transactional_atomicity.2.2 db5 role5 [88]).1
      ⟨88, by decide, by decide⟩⟩

def r7 : Menu := ⟨1, none, none, "root", none, none, 0, 1, true, false⟩

/-- A row whose parent id (99) matches no row of the input. -/
def o7 : Menu := ⟨2, none, some 99, "orphan", none, none, 0, 2, true, false⟩

def ms7 : List Menu := [r7, o7]

theorem claim_C7_orphan_dropping_witness :
    countIdForest o7.id (build_menu_tree ms7) = 0 :=
  claim_C7_orphan_dropping ms7 (by decide) o7 (by decide) 99 rfl (by decide)

theorem claim_C9_two_level_depth_witness :
    (∀ m ∈ exMenus, (m.level = 1 ∨ m.level = 2) ∧
      (m.level = 1 → m.parent_id = none) ∧
      (m.level = 2 → m.parent_id ≠ none ∧
        ∀ p ∈ exMenus, m.parent_id = some p.id → p.level = 1)) ∧
    (∀ root ∈ build_menu_tree exMenus, ∀ c ∈ root.children,
      c.children = []) :=
  ⟨by decide, claim_C9_two_level_depth exMenus (by decide)⟩

def y1 : Menu := ⟨1, none, none, "a", none, none, 0, 1, true, false⟩

/-- Rows 2 and 3 form a parent cycle, unreachable from any root. -/
def y2 : Menu := ⟨2, none, some 3, "b", none, none, 0, 2, true, false⟩

def y3 : Menu := ⟨3, none, some 2, "c", none, none, 0, 2, true, false⟩

def cyc : List Menu := [y1, y2, y3]

theorem claim_C10_termination_no_duplication_witness :
    buildMenuTreeFuel cyc 5 = build_menu_tree cyc ∧
    countIdForest 2 (build_menu_tree cyc) ≤ 1 :=
  ⟨(claim_C10_termination_no_duplication cyc (by decide)).1 5 (by decide),
   (claim_C10_termination_no_duplication cyc (by decide)).2 2⟩

theorem claim_C4_full_replace_idempotence_witness :
    ((u3.id, 2) ∈ (set_user_roles db3 u3 [2, 3]).user_roles ↔
      (2 : Int) ∈ [(2 : Int), 3]) ∧
    set_user_roles (set_user_roles db3 u3 [2, 3]) u3 [2, 3] =
      set_user_roles db3 u3 [2, 3] :=
  ⟨(claim_C4_full_replace_idempotence.1 db3 u3 [2, 3]).1 2,
   (claim_C4_full_replace_idempotence.1 db3 u3 [2, 3]).2.1⟩

theorem claim_C6_tree_ordering_witness :
    (childrenOf exMenus none).Perm
      (exMenus.filter (fun m => m.parent_id == none)) ∧
    List.Sorted menuLe (childrenOf exMenus none) :=
  ⟨(claim_C6_tree_ordering.2 exMenus none).1,
   (claim_C6_tree_ordering.2 exMenus none).2⟩

theorem claim_C8_role_resolver_ignores_active_flag_witness :
    (role10 ∈ get_user_roles db3 u3.id ↔
      role10 ∈ db3.roles ∧ role10.is_deleted = false ∧
        ∃ ur ∈ db3.user_roles, ur.1 = u3.id ∧ ur.2 = role10.id) ∧
    resolve_user_permissions_and_menus
        { db3 with
          roles := db3.roles.map (fun r => { r with is_active := false }) } u3
      = resolve_user_permissions_and_menus db3 u3 :=
  ⟨claim_C8_role_resolver_ignores_active_flag.1 db3 u3.id role10,
   claim_C8_role_resolver_ignores_active_flag.2.2 db3 u3 (fun _ => false)⟩

end ProdRepo
